import Mathlib

/-!
Verification of the word-timing synthesis engine of a text-to-speech pipeline
(`src/audio/tts.py`): the duration-proportional timing estimator
(`_generate_approximate_word_timings`), the numeric/citation expander
(`_expand_numeric_references`) and the reference-reordering corrector
(`_fix_reference_order`).

Floating-point times are modelled by exact rationals; text is modelled as
lists of characters.  Each Python function is embedded as an executable Lean
definition following the source line by line.
-/

/-- A timed token `(word, start_time, end_time)` as used by the Python code. -/
abbrev TimedToken : Type := List Char × ℚ × ℚ

/-- Default token used by `List.headD` / `List.getLastD` (never observed: it is
only read from non-empty lists). -/
def dummyTok : TimedToken := ([], 0, 0)

/-! ### Whitespace tokenization (Python `str.split()`) -/

/-- Accumulator-based splitter: splits on runs of whitespace, dropping empty
tokens, like Python `str.split()`. -/
def splitWordsAux : List Char → List Char → List (List Char)
  | [], acc => if acc.isEmpty then [] else [acc.reverse]
  | c :: cs, acc =>
    if c.isWhitespace then
      if acc.isEmpty then splitWordsAux cs []
      else acc.reverse :: splitWordsAux cs []
    else splitWordsAux cs (c :: acc)

/-- Python `text.split()`: whitespace-delimited tokens of a text. -/
def splitWords (l : List Char) : List (List Char) := splitWordsAux l []

/-! ### The three regular expressions of the source, as structural checkers

* `verse_reference_pattern = ^\d+:\d+(-\d+)?$`
* `numeric_pattern = ^\d+(\.\d+)?$`
* `citation_pattern = \([^)]*\d+:\d+[^)]*\)` (searched, not anchored)
-/

/-- Anchored match of `^\d+:\d+(-\d+)?$` (e.g. `99:7` or `99:7-8`).  Since a
digit is never `:` or `-`, the greedy `\d+` groups are exactly `takeWhile
isDigit` runs. -/
def matchVerseRef (w : List Char) : Bool :=
  !(w.takeWhile Char.isDigit).isEmpty &&
    (match w.dropWhile Char.isDigit with
     | c :: r2 =>
       c == ':' &&
       !(r2.takeWhile Char.isDigit).isEmpty &&
       (match r2.dropWhile Char.isDigit with
        | [] => true
        | c2 :: r4 =>
          c2 == '-' && !(r4.takeWhile Char.isDigit).isEmpty &&
            (r4.dropWhile Char.isDigit).isEmpty)
     | [] => false)

/-- Anchored match of `^\d+(\.\d+)?$` (e.g. `99` or `99.7`). -/
def matchNumeric (w : List Char) : Bool :=
  !(w.takeWhile Char.isDigit).isEmpty &&
    (match w.dropWhile Char.isDigit with
     | [] => true
     | c :: r2 =>
       c == '.' && !(r2.takeWhile Char.isDigit).isEmpty &&
         (r2.dropWhile Char.isDigit).isEmpty)

/-- A digit, `:`, digit window — the minimal core of `\d+:\d+`. -/
def containsDC : List Char → Bool
  | d1 :: c :: d2 :: rest =>
    (d1.isDigit && c == ':' && d2.isDigit) || containsDC (c :: d2 :: rest)
  | _ => false

/-- Fueled scan for all (non-overlapping, leftmost) matches of
`\([^)]*\d+:\d+[^)]*\)`.  A candidate match starting at a `(` must end at the
first `)` after it (the interior may not contain `)`), and succeeds iff that
interior contains a digit-colon-digit window; on success the scan resumes
after the match, on failure at the next character — exactly the semantics of
`re.findall`.  The fuel strictly exceeds every resumption point, so the
`fuel = 0` fallback is unreachable from `findCitations`. -/
def findCitationsAux : ℕ → List Char → List (List Char)
  | _, [] => []
  | 0, _ :: _ => []
  | fuel + 1, c :: cs =>
    if c == '(' then
      match cs.dropWhile (fun x => x ≠ ')') with
      | [] => findCitationsAux fuel cs
      | _ :: rest2 =>
        if containsDC (cs.takeWhile (fun x => x ≠ ')')) then
          ('(' :: (cs.takeWhile (fun x => x ≠ ')') ++ [')'])) ::
            findCitationsAux fuel rest2
        else findCitationsAux fuel cs
    else findCitationsAux fuel cs

/-- Python `re.findall(r'\([^)]*\d+:\d+[^)]*\)', text)`. -/
def findCitations (l : List Char) : List (List Char) := findCitationsAux l.length l

/-- Truthiness of `citation_pattern.search(text)`: some match exists. -/
def citationSearch (l : List Char) : Bool := !(findCitations l).isEmpty

/-! ### `_generate_approximate_word_timings` (the estimator) -/

/-- First pass of the estimator: walking the token list with a running index,
compute each token's raw duration (`word_length_factor * avg_word_duration`)
and collect the indices of special-cased tokens, exactly as the Python loop
does. -/
def firstPassAux (avg : ℚ) : ℕ → List (List Char) → List ℚ × List ℕ
  | _, [] => ([], [])
  | i, w :: rest =>
    let res := firstPassAux avg (i + 1) rest
    if matchVerseRef w then
      ((max (1/2) (min 4 (((w.length : ℚ) / 5) * 3)) * avg) :: res.1, i :: res.2)
    else if matchNumeric w then
      ((max (1/2) (min 3 (((w.length : ℚ) / 5) * 2)) * avg) :: res.1, i :: res.2)
    else
      ((max (1/2) (min 2 ((w.length : ℚ) / 5)) * avg) :: res.1, res.2)

/-- A token is special-cased iff it matches the verse-reference or the
standalone-numeral pattern. -/
def isSpecialCase (w : List Char) : Bool := matchVerseRef w || matchNumeric w

/-- The raw (`initial_durations`) list of the estimator's first pass, with
`avg_word_duration = duration / len(words)`. -/
def initialDurations (ws : List (List Char)) (d : ℚ) : List ℚ :=
  (firstPassAux (d / (ws.length : ℚ)) 0 ws).1

/-- The `special_case_indices` list of the estimator's first pass. -/
def specialCaseIndices (ws : List (List Char)) (d : ℚ) : List ℕ :=
  (firstPassAux (d / (ws.length : ℚ)) 0 ws).2

/-- The durations actually used for cumulative assignment: the raw durations,
scaled down by `duration / sum` when there is at least one special-cased
index, at least one other token, and the raw sum exceeds the duration. -/
def adjustedDurations (ws : List (List Char)) (d : ℚ) : List ℚ :=
  if !(specialCaseIndices ws d).isEmpty ∧ (specialCaseIndices ws d).length < ws.length ∧
      d < (initialDurations ws d).sum then
    (initialDurations ws d).map (fun x => x * (d / (initialDurations ws d).sum))
  else initialDurations ws d

/-- Cumulative start/end assignment from a running clock. -/
def accumTimings : ℚ → List (List Char × ℚ) → List TimedToken
  | _, [] => []
  | t, (w, dur) :: rest => (w, t, t + dur) :: accumTimings (t + dur) rest

/-- `_generate_approximate_word_timings(text, duration)`: split the text,
weight each token, optionally rein in special-case overweight, lay the tokens
out cumulatively from 0, and rescale everything to end at `duration` when the
last end misses it by more than `0.01`. -/
def generateApproximateWordTimings (text : List Char) (d : ℚ) : List TimedToken :=
  let words := splitWords text
  if words.isEmpty then []
  else
    let ds := adjustedDurations words d
    let wt := accumTimings 0 (words.zip ds)
    if wt.isEmpty then wt
    else
      let lastEnd := (wt.getLastD dummyTok).2.2
      if 1/100 < |lastEnd - d| then
        wt.map (fun p => (p.1, p.2.1 * (d / lastEnd), p.2.2 * (d / lastEnd)))
      else wt

/-! ### `_expand_numeric_references` (the expander) -/

/-- Python `' '.join(...)`. -/
def joinSpace : List (List Char) → List Char
  | [] => []
  | [w] => w
  | w :: ws => w ++ ' ' :: joinSpace ws

/-- `int(float(word))` for a token matching `^\d+(\.\d+)?$`: the integer
denoted by the leading digit run (truncation discards any fractional part). -/
def natFromDigits (l : List Char) : ℕ :=
  l.foldl (fun acc c => 10 * acc + (c.toNat - 48)) 0

/-- The expander's citation collection: starting at the current token, gather
tokens up to and including the first one containing `)`; `none` when the
sequence ends without a closing parenthesis. -/
def collectCitation : List TimedToken → Option (List TimedToken × List TimedToken)
  | [] => none
  | t :: rest =>
    if ')' ∈ t.1 then some ([t], rest)
    else
      match collectCitation rest with
      | some (ps, rem) => some (t :: ps, rem)
      | none => none

/-- Per-token handling of the expander (the verse-reference split, the
compound-numeral split, and the default pass-through), for a token that was
not consumed by a citation merge. -/
def expandOne (t : TimedToken) : List TimedToken :=
  if matchVerseRef t.1 then
    let dur := t.2.2 - t.2.1
    let chapterDuration := dur * (3/5)
    [(t.1.takeWhile (fun c => c ≠ ':'), t.2.1, t.2.1 + chapterDuration),
     ((t.1.dropWhile (fun c => c ≠ ':')).drop 1, t.2.1 + chapterDuration, t.2.2)]
  else if matchNumeric t.1 && decide (1 < t.1.length) then
    let dur := t.2.2 - t.2.1
    let num := natFromDigits (t.1.takeWhile Char.isDigit)
    if 20 < num ∧ num < 100 then
      let firstDuration := dur * (3/5)
      if 0 < num % 10 then
        [([Nat.digitChar (num / 10), '0'], t.2.1, t.2.1 + firstDuration),
         ([Nat.digitChar (num % 10)], t.2.1 + firstDuration, t.2.2)]
      else
        [([Nat.digitChar (num / 10), '0'], t.2.1, t.2.2)]
    else [t]
  else [t]

/-- Fueled body of `_expand_numeric_references`: a left-to-right pass that
merges complete citation runs into one token and otherwise applies
`expandOne`.  Every recursive call is on a strictly shorter list, so fuel
equal to the list length (as supplied by `expandNumericReferences`) never
runs out. -/
def expandNumAux : ℕ → List TimedToken → List TimedToken
  | _, [] => []
  | 0, l => l
  | fuel + 1, t :: rest =>
    if '(' ∈ t.1 then
      match collectCitation (t :: rest) with
      | some (parts, rem) =>
        if citationSearch (joinSpace (parts.map (fun p => p.1))) then
          (joinSpace (parts.map (fun p => p.1)), t.2.1,
            (parts.getLastD dummyTok).2.2) :: expandNumAux fuel rem
        else expandOne t ++ expandNumAux fuel rest
      | none => expandOne t ++ expandNumAux fuel rest
    else expandOne t ++ expandNumAux fuel rest

/-- `_expand_numeric_references(word_timings)`. -/
def expandNumericReferences (l : List TimedToken) : List TimedToken :=
  expandNumAux l.length l

/-! ### `_fix_reference_order` (the corrector) -/

/-- Python `s.strip(c)`: remove every copy of `c` from both ends. -/
def stripChar (c : Char) (l : List Char) : List Char :=
  ((l.dropWhile (fun x => x == c)).reverse.dropWhile (fun x => x == c)).reverse

/-- Python `s.strip()`: remove whitespace from both ends. -/
def pyStrip (l : List Char) : List Char :=
  ((l.dropWhile Char.isWhitespace).reverse.dropWhile Char.isWhitespace).reverse

/-- Python `hay.find(pat)`: index of the first occurrence of `pat` in `hay`,
or `none` (Python `-1`) when absent. -/
def findSub (pat : List Char) : List Char → Option ℕ
  | [] => if pat.isPrefixOf ([] : List Char) then some 0 else none
  | c :: t =>
    if pat.isPrefixOf (c :: t) then some 0
    else (findSub pat t).map (fun n => n + 1)

/-- The corrector's search for the reference inside the timing words: the
first index `i ≥ 1` whose word starts with the (paren-stripped) opening
fragment of the reference. -/
def findRefStart (frag : List Char) (words : List (List Char)) : Option ℕ :=
  match words with
  | [] => none
  | _ :: rest => (rest.findIdx? (fun w => frag.isPrefixOf w)).map (fun i => i + 1)

/-- The per-reference loop of `_fix_reference_order`: for each extracted
parenthetical reference, detect misplacement (its stripped opening fragment
begins one of the first three timing words while the text does not start with
the fragment), locate the reference's token run, and splice it to the word
position implied by its character offset; on the first success return the
reordered list, otherwise try the next reference. -/
def fixLoop (text : List Char) (wt : List TimedToken) (words : List (List Char)) :
    List (List Char) → List TimedToken
  | [] => wt
  | ref :: refs =>
    let firstPart := (splitWords ref).headD []
    let frag := stripChar '(' firstPart
    if (words.take 3).any (fun w => frag.isPrefixOf w) &&
        !(firstPart.isPrefixOf (pyStrip text)) then
      match findSub ref text with
      | some p =>
        if 0 < p then
          let target := (splitWords (text.take p)).length
          match findRefStart frag words with
          | some refStart =>
            match ((words.drop refStart).findIdx? (fun w => w.contains ')')).map
                (fun i => i + refStart) with
            | some refEnd =>
              let refTimings := (wt.drop refStart).take (refEnd - refStart + 1)
              let newTimings := wt.take refStart ++ wt.drop (refEnd + 1)
              let tgt := min target newTimings.length
              newTimings.take tgt ++ refTimings ++ newTimings.drop tgt
            | none => fixLoop text wt words refs
          | none => fixLoop text wt words refs
        else fixLoop text wt words refs
      | none => fixLoop text wt words refs
    else fixLoop text wt words refs

/-- `_fix_reference_order(original_text, word_timings)`. -/
def fixReferenceOrder (text : List Char) (wt : List TimedToken) : List TimedToken :=
  let refs := findCitations text
  if refs.isEmpty then wt
  else fixLoop text wt (wt.map (fun p => p.1)) refs

/-! ### Observables used by the claims -/

/-- `clamp(lo, hi, x)` as written in the specification. -/
def clampVal (lo hi x : ℚ) : ℚ := max lo (min hi x)

/-- The specification's per-class weight formula, with verse-reference taking
precedence over standalone-numeral over ordinary word. -/
def specWeight (w : List Char) : ℚ :=
  if matchVerseRef w then clampVal (1/2) 4 (((w.length : ℚ) / 5) * 3)
  else if matchNumeric w then clampVal (1/2) 3 (((w.length : ℚ) / 5) * 2)
  else clampVal (1/2) 2 ((w.length : ℚ) / 5)

/-- A timing sequence tiles its timeline: every token has strictly positive
duration and each token's end is exactly the next token's start. -/
def wellChained : List TimedToken → Bool
  | [] => true
  | [t] => decide (t.2.1 < t.2.2)
  | t1 :: t2 :: rest =>
    decide (t1.2.1 < t1.2.2) && decide (t1.2.2 = t2.2.1) && wellChained (t2 :: rest)

/-! ### Helper lemmas: the estimator's first pass -/

theorem firstPassAux_fst (avg : ℚ) :
    ∀ (ws : List (List Char)) (i : ℕ),
      (firstPassAux avg i ws).1 = ws.map (fun w => specWeight w * avg) := by
  intro ws
  induction ws with
  | nil => intro i; rfl
  | cons w rest ih =>
    intro i
    by_cases hv : matchVerseRef w
    · simp only [firstPassAux, hv, if_true, List.map_cons, ih]
      congr 1
      simp [specWeight, clampVal, hv]
    · by_cases hn : matchNumeric w
      · simp only [firstPassAux, hv, hn, if_true, if_false, Bool.false_eq_true,
          List.map_cons, ih]
        congr 1
        simp [specWeight, clampVal, hv, hn]
      · simp only [firstPassAux, hv, hn, if_false, Bool.false_eq_true,
          List.map_cons, ih]
        congr 1
        simp [specWeight, clampVal, hv, hn]

theorem firstPassAux_snd_length (avg : ℚ) :
    ∀ (ws : List (List Char)) (i : ℕ),
      (firstPassAux avg i ws).2.length = (ws.filter isSpecialCase).length := by
  intro ws
  induction ws with
  | nil => intro i; rfl
  | cons w rest ih =>
    intro i
    simp only [firstPassAux, isSpecialCase]
    by_cases hv : matchVerseRef w
    · simp [hv, List.filter, isSpecialCase, ih]
    · by_cases hn : matchNumeric w
      · simp [hv, hn, List.filter, isSpecialCase, ih]
      · simp [hv, hn, List.filter, isSpecialCase, ih]

theorem initialDurations_eq_map (ws : List (List Char)) (d : ℚ) :
    initialDurations ws d = ws.map (fun w => specWeight w * (d / (ws.length : ℚ))) :=
  firstPassAux_fst _ ws 0

theorem initialDurations_length (ws : List (List Char)) (d : ℚ) :
    (initialDurations ws d).length = ws.length := by
  rw [initialDurations_eq_map]; simp

theorem specWeight_pos (w : List Char) : 0 < specWeight w := by
  have h : (0 : ℚ) < 1/2 := by norm_num
  unfold specWeight clampVal
  split
  · exact lt_of_lt_of_le h (le_max_left _ _)
  · split
    · exact lt_of_lt_of_le h (le_max_left _ _)
    · exact lt_of_lt_of_le h (le_max_left _ _)

theorem initialDurations_pos (ws : List (List Char)) (d : ℚ)
    (hd : 0 < d) (hws : ws ≠ []) : ∀ x ∈ initialDurations ws d, 0 < x := by
  intro x hx
  rw [initialDurations_eq_map] at hx
  obtain ⟨w, _, rfl⟩ := List.mem_map.mp hx
  have hlen : (0 : ℚ) < (ws.length : ℚ) := by
    have : 0 < ws.length := List.length_pos.mpr hws
    exact_mod_cast this
  exact mul_pos (specWeight_pos w) (div_pos hd hlen)

theorem initialDurations_sum_pos (ws : List (List Char)) (d : ℚ)
    (hd : 0 < d) (hws : ws ≠ []) : 0 < (initialDurations ws d).sum := by
  apply List.sum_pos _ (initialDurations_pos ws d hd hws)
  intro h
  have := initialDurations_length ws d
  rw [h] at this
  exact hws (List.length_eq_zero.mp this.symm)

theorem adjustedDurations_pos (ws : List (List Char)) (d : ℚ)
    (hd : 0 < d) (hws : ws ≠ []) : ∀ x ∈ adjustedDurations ws d, 0 < x := by
  intro x hx
  unfold adjustedDurations at hx
  split at hx
  · obtain ⟨y, hy, rfl⟩ := List.mem_map.mp hx
    exact mul_pos (initialDurations_pos ws d hd hws y hy)
      (div_pos hd (initialDurations_sum_pos ws d hd hws))
  · exact initialDurations_pos ws d hd hws x hx

theorem adjustedDurations_length (ws : List (List Char)) (d : ℚ) :
    (adjustedDurations ws d).length = ws.length := by
  unfold adjustedDurations
  split
  · rw [List.length_map, initialDurations_length]
  · exact initialDurations_length ws d

theorem adjustedDurations_sum_pos (ws : List (List Char)) (d : ℚ)
    (hd : 0 < d) (hws : ws ≠ []) : 0 < (adjustedDurations ws d).sum := by
  apply List.sum_pos _ (adjustedDurations_pos ws d hd hws)
  intro h
  have := adjustedDurations_length ws d
  rw [h] at this
  exact hws (List.length_eq_zero.mp this.symm)

/-! ### Helper lemmas: cumulative layout -/

theorem accumTimings_ne_nil (t : ℚ) (ps : List (List Char × ℚ)) (h : ps ≠ []) :
    accumTimings t ps ≠ [] := by
  cases ps with
  | nil => exact absurd rfl h
  | cons p rest => obtain ⟨w, dur⟩ := p; simp [accumTimings]

theorem getLastD_irrel {α : Type _} :
    ∀ (l : List α), l ≠ [] → ∀ d1 d2 : α, l.getLastD d1 = l.getLastD d2 := by
  intro l
  induction l with
  | nil => intro h; exact absurd rfl h
  | cons a as _ =>
    intro _ d1 d2
    cases as with
    | nil => rfl
    | cons b bs => simp only [List.getLastD_cons]

theorem accumTimings_getLast_end (ps : List (List Char × ℚ)) :
    ∀ t : ℚ, ps ≠ [] →
      ((accumTimings t ps).getLastD dummyTok).2.2 = t + (ps.map (fun p => p.2)).sum := by
  induction ps with
  | nil => intro t h; exact absurd rfl h
  | cons p rest ih =>
    intro t _
    obtain ⟨w, dur⟩ := p
    cases hr : rest with
    | nil => simp [accumTimings, List.getLastD]
    | cons q rest2 =>
      have hne : rest ≠ [] := by rw [hr]; simp
      have hacc : accumTimings (t + dur) rest ≠ [] := accumTimings_ne_nil _ _ hne
      rw [← hr]
      show ((accumTimings t ((w, dur) :: rest)).getLastD dummyTok).2.2 = _
      rw [show accumTimings t ((w, dur) :: rest)
            = (w, t, t + dur) :: accumTimings (t + dur) rest from rfl]
      rw [List.getLastD_cons]
      rw [getLastD_irrel _ hacc _ dummyTok, ih (t + dur) hne]
      simp [List.map_cons]
      ring

theorem zip_map_snd (ws : List (List Char)) (ds : List ℚ) (h : ds.length ≤ ws.length) :
    (ws.zip ds).map (fun p => p.2) = ds := by
  have := List.map_snd_zip ws ds h
  simpa using this

theorem mem_zip_snd {ws : List (List Char)} {ds : List ℚ} {x : List Char × ℚ}
    (hx : x ∈ ws.zip ds) : x.2 ∈ ds := by
  obtain ⟨a, b⟩ := x
  exact (List.of_mem_zip hx).2

theorem accumTimings_head_start (t : ℚ) (ps : List (List Char × ℚ)) (h : ps ≠ []) :
    ((accumTimings t ps).headD dummyTok).2.1 = t := by
  cases ps with
  | nil => exact absurd rfl h
  | cons p rest => obtain ⟨w, dur⟩ := p; rfl

theorem headD_map_tok (f : TimedToken → TimedToken) (l : List TimedToken) (h : l ≠ []) :
    (l.map f).headD dummyTok = f (l.headD dummyTok) := by
  cases l with
  | nil => exact absurd rfl h
  | cons a as => rfl

theorem getLastD_map_tok (f : TimedToken → TimedToken) (l : List TimedToken) (h : l ≠ []) :
    (l.map f).getLastD dummyTok = f (l.getLastD dummyTok) := by
  rw [List.getLastD_eq_getLast?, List.getLastD_eq_getLast?, List.getLast?_map]
  cases hl : l.getLast? with
  | none => rw [List.getLast?_eq_none_iff] at hl; exact absurd hl h
  | some a => rfl

theorem zip_adjusted_ne_nil (text : List Char) (d : ℚ) (hw : splitWords text ≠ []) :
    (splitWords text).zip (adjustedDurations (splitWords text) d) ≠ [] := by
  intro h
  have hlen := congrArg List.length h
  rw [List.length_zip, adjustedDurations_length] at hlen
  simp only [min_self, List.length_nil] at hlen
  exact hw (List.length_eq_zero.mp hlen)

theorem generateApproximateWordTimings_eq (text : List Char) (d : ℚ)
    (hw : splitWords text ≠ []) :
    generateApproximateWordTimings text d =
      if 1/100 <
          |((accumTimings 0 ((splitWords text).zip
              (adjustedDurations (splitWords text) d))).getLastD dummyTok).2.2 - d| then
        (accumTimings 0 ((splitWords text).zip
            (adjustedDurations (splitWords text) d))).map
          (fun p =>
            (p.1,
             p.2.1 * (d / ((accumTimings 0 ((splitWords text).zip
                 (adjustedDurations (splitWords text) d))).getLastD dummyTok).2.2),
             p.2.2 * (d / ((accumTimings 0 ((splitWords text).zip
                 (adjustedDurations (splitWords text) d))).getLastD dummyTok).2.2)))
      else
        accumTimings 0 ((splitWords text).zip (adjustedDurations (splitWords text) d)) := by
  have h1 : ¬ (splitWords text).isEmpty = true := by simp [List.isEmpty_iff, hw]
  have h2 : ¬ (accumTimings 0 ((splitWords text).zip
      (adjustedDurations (splitWords text) d))).isEmpty = true := by
    rw [List.isEmpty_iff]
    exact accumTimings_ne_nil _ _ (zip_adjusted_ne_nil text d hw)
  simp only [generateApproximateWordTimings]
  rw [if_neg h1, if_neg h2]

theorem estimate_lastEnd_eq_sum (text : List Char) (d : ℚ) (hw : splitWords text ≠ []) :
    ((accumTimings 0 ((splitWords text).zip
        (adjustedDurations (splitWords text) d))).getLastD dummyTok).2.2 =
      (adjustedDurations (splitWords text) d).sum := by
  rw [accumTimings_getLast_end _ 0 (zip_adjusted_ne_nil text d hw)]
  rw [zip_map_snd _ _ (le_of_eq (adjustedDurations_length _ _))]
  ring

theorem accumTimings_chain (ps : List (List Char × ℚ)) :
    ∀ t : ℚ, (∀ x ∈ ps, 0 < x.2) → wellChained (accumTimings t ps) = true := by
  induction ps with
  | nil => intro t _; rfl
  | cons p rest ih =>
    intro t hpos
    obtain ⟨w, dur⟩ := p
    have hdur : 0 < dur := hpos (w, dur) (by simp)
    cases rest with
    | nil =>
      show wellChained [(w, t, t + dur)] = true
      simp only [wellChained, decide_eq_true_eq]
      linarith
    | cons q rest2 =>
      obtain ⟨w2, d2⟩ := q
      show wellChained ((w, t, t + dur) :: (w2, t + dur, t + dur + d2) ::
        accumTimings (t + dur + d2) rest2) = true
      rw [wellChained]
      simp only [Bool.and_eq_true, decide_eq_true_eq]
      refine ⟨⟨by linarith, by simp⟩, ?_⟩
      have := ih (t + dur) (fun x hx => hpos x (List.mem_cons_of_mem _ hx))
      exact this

theorem wellChained_scale (sf : ℚ) (hsf : 0 < sf) :
    ∀ l : List TimedToken, wellChained l = true →
      wellChained (l.map (fun p => (p.1, p.2.1 * sf, p.2.2 * sf))) = true := by
  intro l
  induction l with
  | nil => intro _; rfl
  | cons t1 tl ih =>
    intro h
    cases tl with
    | nil =>
      simp only [List.map_cons, List.map_nil, wellChained, decide_eq_true_eq] at h ⊢
      exact mul_lt_mul_of_pos_right h hsf
    | cons t2 tr =>
      simp only [List.map_cons, wellChained, Bool.and_eq_true, decide_eq_true_eq] at h ⊢
      obtain ⟨⟨h1, h2⟩, h3⟩ := h
      refine ⟨⟨mul_lt_mul_of_pos_right h1 hsf, by rw [h2]⟩, ?_⟩
      have := ih h3
      simpa using this

theorem specialCaseIndices_length (ws : List (List Char)) (d : ℚ) :
    (specialCaseIndices ws d).length = (ws.filter isSpecialCase).length :=
  firstPassAux_snd_length _ ws 0

/-! ### Claim theorems on the estimator -/

/-- C2: for every text with at least one whitespace-delimited token and every
`totalDuration > 0`, `estimate(text, totalDuration)` yields a sequence whose
first token's start is 0 and whose last token's end is within 0.01 of
`totalDuration`. -/
theorem estimate_spanning (text : List Char) (d : ℚ) (hd : 0 < d)
    (hw : splitWords text ≠ []) :
    generateApproximateWordTimings text d ≠ [] ∧
    ((generateApproximateWordTimings text d).headD dummyTok).2.1 = 0 ∧
    |((generateApproximateWordTimings text d).getLastD dummyTok).2.2 - d| ≤ 1/100 := by
  have hzip := zip_adjusted_ne_nil text d hw
  have hwt : accumTimings 0 ((splitWords text).zip
      (adjustedDurations (splitWords text) d)) ≠ [] :=
    accumTimings_ne_nil _ _ hzip
  have hlast := estimate_lastEnd_eq_sum text d hw
  have hsum : 0 < (adjustedDurations (splitWords text) d).sum :=
    adjustedDurations_sum_pos _ _ hd hw
  rw [generateApproximateWordTimings_eq text d hw]
  by_cases htol : 1/100 <
      |((accumTimings 0 ((splitWords text).zip
          (adjustedDurations (splitWords text) d))).getLastD dummyTok).2.2 - d|
  · rw [if_pos htol]
    refine ⟨by simp [hwt], ?_, ?_⟩
    · rw [headD_map_tok _ _ hwt]
      simp only
      rw [accumTimings_head_start 0 _ hzip]
      ring
    · rw [getLastD_map_tok _ _ hwt]
      simp only
      rw [hlast]
      rw [mul_comm, div_mul_cancel₀ _ (ne_of_gt hsum)]
      simp
  · rw [if_neg htol]
    exact ⟨hwt, accumTimings_head_start 0 _ hzip, le_of_not_lt htol⟩

/-- Witness for C2 at text `"hello world"` and duration 5. -/
theorem estimate_spanning_witness :
    (0 : ℚ) < 5 ∧ splitWords ("hello world".data) ≠ [] ∧
    (generateApproximateWordTimings ("hello world".data) 5 ≠ [] ∧
     ((generateApproximateWordTimings ("hello world".data) 5).headD dummyTok).2.1 = 0 ∧
     |((generateApproximateWordTimings ("hello world".data) 5).getLastD dummyTok).2.2 - 5|
       ≤ 1/100) :=
  ⟨by norm_num, by decide, estimate_spanning _ 5 (by norm_num) (by decide)⟩

/-- C9: for every text with at least one token and every `totalDuration > 0`,
the sequence returned by `estimate` tiles its timeline with no gaps and no
overlaps: each token's start equals the previous token's end exactly, and
every token's duration is strictly positive. -/
theorem estimate_tiling (text : List Char) (d : ℚ) (hd : 0 < d)
    (hw : splitWords text ≠ []) :
    wellChained (generateApproximateWordTimings text d) = true := by
  have hzip := zip_adjusted_ne_nil text d hw
  have hpos : ∀ x ∈ (splitWords text).zip (adjustedDurations (splitWords text) d),
      0 < x.2 :=
    fun x hx => adjustedDurations_pos _ _ hd hw x.2 (mem_zip_snd hx)
  have hchain := accumTimings_chain _ 0 hpos
  rw [generateApproximateWordTimings_eq text d hw]
  by_cases htol : 1/100 <
      |((accumTimings 0 ((splitWords text).zip
          (adjustedDurations (splitWords text) d))).getLastD dummyTok).2.2 - d|
  · rw [if_pos htol]
    apply wellChained_scale
    · rw [estimate_lastEnd_eq_sum text d hw]
      exact div_pos hd (adjustedDurations_sum_pos _ _ hd hw)
    · exact hchain
  · rw [if_neg htol]
    exact hchain

/-- Witness for C9 at text `"hello 99 7:28"` and duration 3. -/
theorem estimate_tiling_witness :
    (0 : ℚ) < 3 ∧ splitWords ("hello 99 7:28".data) ≠ [] ∧
    wellChained (generateApproximateWordTimings ("hello 99 7:28".data) 3) = true :=
  ⟨by norm_num, by decide, estimate_tiling _ 3 (by norm_num) (by decide)⟩

/-- C8: every token is classified with verse-reference taking precedence over
standalone-numeral over ordinary word, and its raw duration is
`weight * (totalDuration / tokenCount)` with the spec's clamp formulas. -/
theorem estimate_weight_formula (text : List Char) (d : ℚ) :
    initialDurations (splitWords text) d =
      (splitWords text).map
        (fun w => specWeight w * (d / ((splitWords text).length : ℚ))) :=
  initialDurations_eq_map _ _

/-- Counterexample to C5 as stated: for a text consisting of one ordinary
ten-character token, with duration 1, the raw weighted duration sums to 2
(exceeding the duration), yet no uniform scaling is applied before cumulative
assignment, because no special-cased token is present. -/
theorem estimate_scaling_cex :
    1 < (initialDurations (splitWords (List.replicate 10 'a')) 1).sum ∧
    adjustedDurations (splitWords (List.replicate 10 'a')) 1 ≠
      (initialDurations (splitWords (List.replicate 10 'a')) 1).map
        (fun x => x *
          (1 / (initialDurations (splitWords (List.replicate 10 'a')) 1).sum)) := by
  have hsplit : splitWords (List.replicate 10 'a') = [List.replicate 10 'a'] := by decide
  have hv : matchVerseRef (List.replicate 10 'a') = false := by decide
  have hn : matchNumeric (List.replicate 10 'a') = false := by decide
  have hinit : initialDurations (splitWords (List.replicate 10 'a')) 1 = [2] := by
    rw [hsplit]
    simp only [initialDurations, firstPassAux, hv, hn, Bool.false_eq_true, if_false,
      List.length_replicate, List.length_cons, List.length_nil]
    norm_num
  have hidx : specialCaseIndices (splitWords (List.replicate 10 'a')) 1 = [] := by
    rw [hsplit]
    simp only [specialCaseIndices, firstPassAux, hv, hn, Bool.false_eq_true, if_false]
  constructor
  · rw [hinit]; norm_num
  · rw [adjustedDurations, hidx, hinit, hsplit]
    simp only [List.isEmpty_nil, Bool.not_true, Bool.false_eq_true, false_and, if_false,
      List.map_cons, List.map_nil, List.sum_cons, List.sum_nil]
    intro h
    have := List.head_eq_of_cons_eq h
    norm_num at this

/-- C5 (amended): the uniform scale-down by `totalDuration / sum(rawDurations)`
before cumulative assignment is applied exactly when the raw sum exceeds
`totalDuration` AND the text contains at least one special-cased token AND at
least one ordinary token. -/
theorem estimate_scaling_condition (ws : List (List Char)) (d : ℚ) :
    adjustedDurations ws d =
      if (∃ w ∈ ws, isSpecialCase w = true) ∧ (∃ w ∈ ws, ¬ isSpecialCase w = true) ∧
          d < (initialDurations ws d).sum then
        (initialDurations ws d).map (fun x => x * (d / (initialDurations ws d).sum))
      else initialDurations ws d := by
  have hlen := specialCaseIndices_length ws d
  have h0 : ((!(specialCaseIndices ws d).isEmpty) = true) ↔
      specialCaseIndices ws d ≠ [] := by
    simp [List.isEmpty_iff]
  have h1 : specialCaseIndices ws d ≠ [] ↔ ∃ w ∈ ws, isSpecialCase w = true := by
    rw [← List.length_pos, hlen, List.length_pos]
    constructor
    · intro hne
      by_contra hno
      push_neg at hno
      exact hne (List.filter_eq_nil_iff.mpr (by simpa using hno))
    · rintro ⟨w, hw, hsp⟩ hnil
      exact absurd hsp (by simpa using List.filter_eq_nil_iff.mp hnil w hw)
  have h2 : (specialCaseIndices ws d).length < ws.length ↔
      ∃ w ∈ ws, ¬ isSpecialCase w = true := by
    rw [hlen]
    exact List.length_filter_lt_length_iff_exists
  have hiff : ((!(specialCaseIndices ws d).isEmpty) = true ∧
      (specialCaseIndices ws d).length < ws.length ∧
      d < (initialDurations ws d).sum) ↔
      ((∃ w ∈ ws, isSpecialCase w = true) ∧ (∃ w ∈ ws, ¬ isSpecialCase w = true) ∧
        d < (initialDurations ws d).sum) :=
    and_congr (h0.trans h1) (and_congr h2 Iff.rfl)
  unfold adjustedDurations
  exact if_congr hiff rfl rfl

/-- Counterexample to C3 as stated: on a zero-token text, `estimate` does
return a (empty) timing sequence instead of failing. -/
theorem estimate_empty_returns_sequence_cex :
    generateApproximateWordTimings ("".data) 5 = [] := by decide

/-- C3 (amended): `estimate(text, totalDuration)` returns the empty timing
sequence (raising no error) whenever `text` contains zero whitespace-delimited
tokens. -/
theorem estimate_empty_text_nil (text : List Char) (d : ℚ)
    (h : splitWords text = []) : generateApproximateWordTimings text d = [] := by
  simp [generateApproximateWordTimings, h]

/-- Witness for the amended C3 at the all-whitespace text `"   "`. -/
theorem estimate_empty_text_nil_witness :
    splitWords ("   ".data) = [] ∧
    generateApproximateWordTimings ("   ".data) 7 = [] :=
  ⟨by decide, estimate_empty_text_nil _ 7 (by decide)⟩

/-! ### Helper lemmas: the expander -/

theorem collectCitation_append :
    ∀ (l ps rem : List TimedToken), collectCitation l = some (ps, rem) →
      l = ps ++ rem ∧ ps ≠ [] := by
  intro l
  induction l with
  | nil => intro ps rem h; simp [collectCitation] at h
  | cons t rest ih =>
    intro ps rem h
    rw [collectCitation] at h
    by_cases hc : ')' ∈ t.1
    · rw [if_pos hc] at h
      simp only [Option.some_inj, Prod.mk.injEq] at h
      obtain ⟨hps, hrem⟩ := h
      subst hps; subst hrem
      exact ⟨rfl, by simp⟩
    · rw [if_neg hc] at h
      cases hrec : collectCitation rest with
      | none => rw [hrec] at h; simp at h
      | some pr =>
        obtain ⟨ps2, rem2⟩ := pr
        rw [hrec] at h
        simp only [Option.some_inj, Prod.mk.injEq] at h
        obtain ⟨hps, hrem⟩ := h
        subst hps; subst hrem
        obtain ⟨he, _⟩ := ih ps2 rem2 hrec
        exact ⟨by rw [List.cons_append, ← he], by simp⟩

theorem collectCitation_rem_length (l ps rem : List TimedToken)
    (h : collectCitation l = some (ps, rem)) : rem.length < l.length := by
  obtain ⟨he, hne⟩ := collectCitation_append l ps rem h
  subst he
  cases ps with
  | nil => exact absurd rfl hne
  | cons a as => simp [List.length_append]; omega

theorem collectCitation_run (ps : List TimedToken) :
    ∀ (q : TimedToken) (rest : List TimedToken), (∀ x ∈ ps, ')' ∉ x.1) → ')' ∈ q.1 →
      collectCitation (ps ++ q :: rest) = some (ps ++ [q], rest) := by
  induction ps with
  | nil =>
    intro q rest _ hq
    rw [List.nil_append, collectCitation, if_pos hq]
    rfl
  | cons p ps2 ih =>
    intro q rest hmid hq
    have hp : ')' ∉ p.1 := hmid p (by simp)
    rw [List.cons_append, collectCitation, if_neg hp,
      ih q rest (fun x hx => hmid x (List.mem_cons_of_mem _ hx)) hq]
    rfl

theorem expandNumAux_fuel (f1 : ℕ) :
    ∀ (f2 : ℕ) (l : List TimedToken), l.length ≤ f1 → l.length ≤ f2 →
      expandNumAux f1 l = expandNumAux f2 l := by
  induction f1 with
  | zero =>
    intro f2 l h1 _
    have hl : l = [] := List.length_eq_zero.mp (Nat.le_zero.mp h1)
    subst hl
    cases f2 <;> rfl
  | succ f ih =>
    intro f2 l h1 h2
    cases l with
    | nil => cases f2 <;> rfl
    | cons t rest =>
      cases f2 with
      | zero => simp at h2
      | succ f2a =>
        have hr1 : rest.length ≤ f := by simpa using h1
        have hr2 : rest.length ≤ f2a := by simpa using h2
        rw [expandNumAux, expandNumAux]
        by_cases hp : '(' ∈ t.1
        · rw [if_pos hp, if_pos hp]
          cases hc : collectCitation (t :: rest) with
          | none => simp only; rw [ih f2a rest hr1 hr2]
          | some pr =>
            obtain ⟨parts, rem⟩ := pr
            have hlt : rem.length < rest.length + 1 :=
              collectCitation_rem_length _ _ _ hc
            have hm1 : rem.length ≤ f := by omega
            have hm2 : rem.length ≤ f2a := by omega
            simp only
            by_cases hs :
                citationSearch (joinSpace (parts.map (fun p => p.1))) = true
            · rw [if_pos hs, if_pos hs, ih f2a rem hm1 hm2]
            · rw [if_neg hs, if_neg hs, ih f2a rest hr1 hr2]
        · rw [if_neg hp, if_neg hp, ih f2a rest hr1 hr2]

theorem expandNum_nil : expandNumericReferences [] = [] := rfl

theorem expandNum_cons_noparen (t : TimedToken) (rest : List TimedToken)
    (hp : '(' ∉ t.1) :
    expandNumericReferences (t :: rest) = expandOne t ++ expandNumericReferences rest := by
  show expandNumAux (rest.length + 1) (t :: rest) = _
  rw [expandNumAux, if_neg hp]
  rfl

theorem expandNum_cons_collect_none (t : TimedToken) (rest : List TimedToken)
    (hp : '(' ∈ t.1) (hc : collectCitation (t :: rest) = none) :
    expandNumericReferences (t :: rest) = expandOne t ++ expandNumericReferences rest := by
  show expandNumAux (rest.length + 1) (t :: rest) = _
  rw [expandNumAux, if_pos hp, hc]
  rfl

theorem expandNum_cons_search_false (t : TimedToken) (rest parts rem : List TimedToken)
    (hp : '(' ∈ t.1) (hc : collectCitation (t :: rest) = some (parts, rem))
    (hs : ¬ citationSearch (joinSpace (parts.map (fun p => p.1))) = true) :
    expandNumericReferences (t :: rest) = expandOne t ++ expandNumericReferences rest := by
  show expandNumAux (rest.length + 1) (t :: rest) = _
  rw [expandNumAux, if_pos hp, hc]
  simp only
  rw [if_neg hs]
  rfl

theorem expandNum_cons_citation (t : TimedToken) (rest parts rem : List TimedToken)
    (hp : '(' ∈ t.1) (hc : collectCitation (t :: rest) = some (parts, rem))
    (hs : citationSearch (joinSpace (parts.map (fun p => p.1))) = true) :
    expandNumericReferences (t :: rest) =
      (joinSpace (parts.map (fun p => p.1)), t.2.1,
        (parts.getLastD dummyTok).2.2) :: expandNumericReferences rem := by
  have hlt : rem.length < rest.length + 1 := collectCitation_rem_length _ _ _ hc
  show expandNumAux (rest.length + 1) (t :: rest) = _
  rw [expandNumAux, if_pos hp, hc]
  simp only
  rw [if_pos hs]
  congr 1
  exact expandNumAux_fuel _ _ _ (by omega) (le_refl _)

theorem expandOne_ne_nil (t : TimedToken) : expandOne t ≠ [] := by
  unfold expandOne
  dsimp only
  split
  · simp
  · split
    · split
      · split <;> simp
      · simp
    · simp

theorem expandOne_last (t : TimedToken) :
    ((expandOne t).getLastD dummyTok).2.2 = t.2.2 := by
  unfold expandOne
  dsimp only
  split
  · simp [List.getLastD]
  · split
    · split
      · split <;> simp [List.getLastD]
      · simp [List.getLastD]
    · simp [List.getLastD]

theorem getLastD_cons_ne_nil (a : TimedToken) (l : List TimedToken) (h : l ≠ [])
    (d : TimedToken) : (a :: l).getLastD d = l.getLastD d := by
  rw [List.getLastD_cons, getLastD_irrel l h a d]

theorem getLastD_append_right (a b : List TimedToken) (hb : b ≠ []) (d : TimedToken) :
    (a ++ b).getLastD d = b.getLastD d := by
  induction a with
  | nil => rfl
  | cons x xs ih =>
    have hne : xs ++ b ≠ [] := by
      intro hcon
      exact hb (List.append_eq_nil.mp hcon).2
    rw [List.cons_append, List.getLastD_cons, getLastD_irrel _ hne x d, ih]

/-! ### Character-shape lemmas for the token patterns -/

theorem matchNumeric_chars (w : List Char) (h : matchNumeric w = true) :
    ∀ c ∈ w, c.isDigit = true ∨ c = '.' := by
  intro c hc
  have hw : w.takeWhile Char.isDigit ++ w.dropWhile Char.isDigit = w :=
    List.takeWhile_append_dropWhile _ _
  unfold matchNumeric at h
  rw [Bool.and_eq_true] at h
  obtain ⟨_, h2⟩ := h
  rw [← hw] at hc
  rcases List.mem_append.mp hc with hmem | hmem
  · exact Or.inl (List.mem_takeWhile_imp hmem)
  · cases hd : w.dropWhile Char.isDigit with
    | nil => rw [hd] at hmem; simp at hmem
    | cons c0 r2 =>
      rw [hd] at h2 hmem
      simp only at h2
      rw [Bool.and_eq_true, Bool.and_eq_true] at h2
      obtain ⟨⟨hdot, _⟩, hempty⟩ := h2
      have hc0 : c0 = '.' := by simpa using hdot
      have hr2 : r2.dropWhile Char.isDigit = [] := by simpa using hempty
      rcases List.mem_cons.mp hmem with rfl | hmem2
      · exact Or.inr hc0
      · have hr2w : r2.takeWhile Char.isDigit ++ r2.dropWhile Char.isDigit = r2 :=
          List.takeWhile_append_dropWhile _ _
        rw [hr2, List.append_nil] at hr2w
        rw [← hr2w] at hmem2
        exact Or.inl (List.mem_takeWhile_imp hmem2)

theorem matchVerseRef_colon (w : List Char) (h : matchVerseRef w = true) : ':' ∈ w := by
  unfold matchVerseRef at h
  rw [Bool.and_eq_true] at h
  obtain ⟨_, h2⟩ := h
  cases hd : w.dropWhile Char.isDigit with
  | nil => rw [hd] at h2; simp at h2
  | cons c0 r2 =>
    rw [hd] at h2
    simp only at h2
    rw [Bool.and_eq_true, Bool.and_eq_true] at h2
    obtain ⟨⟨hcolon, _⟩, _⟩ := h2
    have hc0 : c0 = ':' := by simpa using hcolon
    have hmem : c0 ∈ w := by
      have hw := List.takeWhile_append_dropWhile Char.isDigit w
      rw [← hw, hd]
      exact List.mem_append_right _ (List.mem_cons_self _ _)
    rwa [hc0] at hmem

theorem matchNumeric_no_paren (w : List Char) (h : matchNumeric w = true) : '(' ∉ w := by
  intro hmem
  rcases matchNumeric_chars w h _ hmem with hd | hd
  · exact absurd hd (by decide)
  · exact absurd hd (by decide)

theorem matchNumeric_not_verse (w : List Char) (h : matchNumeric w = true) :
    matchVerseRef w = false := by
  by_contra hv
  rw [Bool.not_eq_false] at hv
  have hcol : ':' ∈ w := matchVerseRef_colon w hv
  rcases matchNumeric_chars w h _ hcol with hd | hd
  · exact absurd hd (by decide)
  · exact absurd hd (by decide)

theorem natFromDigits_single_le (w : List Char)
    (hlen : (w.takeWhile Char.isDigit).length ≤ 1) :
    natFromDigits (w.takeWhile Char.isDigit) ≤ 9 := by
  cases hd : w.takeWhile Char.isDigit with
  | nil => simp [natFromDigits]
  | cons c r =>
    have hr : r = [] := by
      rw [hd] at hlen
      simp only [List.length_cons] at hlen
      exact List.length_eq_zero.mp (by omega)
    subst hr
    have hcdig : c.isDigit = true := List.mem_takeWhile_imp (by rw [hd]; simp)
    have hle : c.toNat ≤ 57 := by
      simp [Char.isDigit] at hcdig
      exact hcdig.2
    simp [natFromDigits]
    omega

theorem takeWhile_len_ge_two (w : List Char)
    (hv : 20 < natFromDigits (w.takeWhile Char.isDigit)) : 1 < w.length := by
  by_contra hcon
  push_neg at hcon
  have h1 : (w.takeWhile Char.isDigit).length ≤ 1 :=
    le_trans (List.Sublist.length_le (List.takeWhile_sublist _)) hcon
  have := natFromDigits_single_le w h1
  omega

theorem expand_last_end_aux :
    ∀ (n : ℕ) (l : List TimedToken), l.length ≤ n → l ≠ [] →
      expandNumericReferences l ≠ [] ∧
      ((expandNumericReferences l).getLastD dummyTok).2.2 = (l.getLastD dummyTok).2.2 := by
  intro n
  induction n with
  | zero =>
    intro l hl hne
    cases l with
    | nil => exact absurd rfl hne
    | cons t rest => simp at hl
  | succ n ih =>
    intro l hl hne
    cases l with
    | nil => exact absurd rfl hne
    | cons t rest =>
      have hcommon :
          expandNumericReferences (t :: rest) =
              expandOne t ++ expandNumericReferences rest →
            expandNumericReferences (t :: rest) ≠ [] ∧
            ((expandNumericReferences (t :: rest)).getLastD dummyTok).2.2 =
              ((t :: rest).getLastD dummyTok).2.2 := by
        intro heq
        rw [heq]
        cases rest with
        | nil =>
          rw [expandNum_nil, List.append_nil]
          refine ⟨expandOne_ne_nil t, ?_⟩
          rw [expandOne_last]
          rfl
        | cons q qs =>
          have hrne : (q :: qs : List TimedToken) ≠ [] := by simp
          obtain ⟨hne2, hend⟩ := ih (q :: qs) (by simpa using hl) hrne
          refine ⟨fun hcon => hne2 (List.append_eq_nil.mp hcon).2, ?_⟩
          rw [getLastD_append_right _ _ hne2, hend, getLastD_cons_ne_nil t _ hrne]
      by_cases hp : '(' ∈ t.1
      · cases hc : collectCitation (t :: rest) with
        | none => exact hcommon (expandNum_cons_collect_none t rest hp hc)
        | some pr =>
          obtain ⟨parts, rem⟩ := pr
          by_cases hs : citationSearch (joinSpace (parts.map (fun p => p.1))) = true
          · have heq := expandNum_cons_citation t rest parts rem hp hc hs
            obtain ⟨happ, hpne⟩ := collectCitation_append _ _ _ hc
            rw [heq]
            cases rem with
            | nil =>
              rw [List.append_nil] at happ
              rw [expandNum_nil]
              refine ⟨by simp, ?_⟩
              rw [happ]
              simp [List.getLastD]
            | cons r rs =>
              have hremne : (r :: rs : List TimedToken) ≠ [] := by simp
              have h1 := collectCitation_rem_length _ _ _ hc
              have h2 : (t :: rest).length ≤ n + 1 := hl
              have hlenrem : (r :: rs : List TimedToken).length ≤ n := by omega
              obtain ⟨hne2, hend⟩ := ih (r :: rs) hlenrem hremne
              refine ⟨by simp, ?_⟩
              rw [getLastD_cons_ne_nil _ _ hne2, hend, happ,
                getLastD_append_right _ _ hremne]
          · exact hcommon (expandNum_cons_search_false t rest parts rem hp hc hs)
      · exact hcommon (expandNum_cons_noparen t rest hp)

/-- C7: for every non-empty input timing sequence, the total end time of
`expand`'s output equals the total end time of its input: the last output
token's end equals the last input token's end. -/
theorem expand_duration_conservation (l : List TimedToken) (h : l ≠ []) :
    expandNumericReferences l ≠ [] ∧
    ((expandNumericReferences l).getLastD dummyTok).2.2 = (l.getLastD dummyTok).2.2 :=
  expand_last_end_aux l.length l (le_refl _) h

/-- Witness for C7 at a concrete two-token sequence. -/
theorem expand_duration_conservation_witness :
    ([("See".data, (0:ℚ), 1), ("7:28".data, 1, 2)] : List TimedToken) ≠ [] ∧
    (expandNumericReferences [("See".data, (0:ℚ), 1), ("7:28".data, 1, 2)] ≠ [] ∧
     ((expandNumericReferences
         [("See".data, (0:ℚ), 1), ("7:28".data, 1, 2)]).getLastD dummyTok).2.2 =
       (([("See".data, (0:ℚ), 1), ("7:28".data, 1, 2)] :
           List TimedToken).getLastD dummyTok).2.2) :=
  ⟨by simp, expand_duration_conservation _ (by simp)⟩

theorem getLastD_eq_getLast (l : List TimedToken) (h : l ≠ []) (d : TimedToken) :
    l.getLastD d = l.getLast h := by
  rw [List.getLastD_eq_getLast?, List.getLast?_eq_getLast l h]
  rfl

theorem collectCitation_full (run rest : List TimedToken) (hne : run ≠ [])
    (hmid : ∀ x ∈ run.dropLast, ')' ∉ x.1)
    (hclose : ')' ∈ (run.getLastD dummyTok).1) :
    collectCitation (run ++ rest) = some (run, rest) := by
  have hq : ')' ∈ (run.getLast hne).1 := by
    rw [← getLastD_eq_getLast run hne dummyTok]
    exact hclose
  have h := collectCitation_run run.dropLast (run.getLast hne) rest hmid hq
  rw [List.append_cons, List.dropLast_append_getLast hne] at h
  exact h

/-- C6: when a token containing an opening parenthesis begins a run of tokens
whose space-joined concatenation, up to and including the first token
containing a closing parenthesis, matches the citation shape, `expand` emits
exactly one merged token for the run, spanning from the first consumed token's
start to the last consumed token's end, and advances past all consumed
tokens. -/
theorem expand_citation_atomicity (run rest : List TimedToken) (hne : run ≠ [])
    (hopen : '(' ∈ (run.headD dummyTok).1)
    (hmid : ∀ x ∈ run.dropLast, ')' ∉ x.1)
    (hclose : ')' ∈ (run.getLastD dummyTok).1)
    (hcit : citationSearch (joinSpace (run.map (fun p => p.1))) = true) :
    expandNumericReferences (run ++ rest) =
      (joinSpace (run.map (fun p => p.1)), (run.headD dummyTok).2.1,
        (run.getLastD dummyTok).2.2) :: expandNumericReferences rest := by
  have hcol := collectCitation_full run rest hne hmid hclose
  cases run with
  | nil => exact absurd rfl hne
  | cons t run2 =>
    have hp : '(' ∈ t.1 := hopen
    have hcol2 : collectCitation (t :: (run2 ++ rest)) = some (t :: run2, rest) := hcol
    have hmain := expandNum_cons_citation t (run2 ++ rest) (t :: run2) rest hp hcol2 hcit
    exact hmain

/-- Witness for C6: the text `"See (Surah Araf 7:28) for details"` gives five
raw tokens of which the citation spans three; `expand` merges them into one. -/
theorem expand_citation_atomicity_witness :
    (([("(Surah".data, (1:ℚ), 2), ("Araf".data, 2, 3), ("7:28)".data, 3, 4)] :
        List TimedToken) ≠ [] ∧
     '(' ∈ (([("(Surah".data, (1:ℚ), 2), ("Araf".data, 2, 3), ("7:28)".data, 3, 4)] :
        List TimedToken).headD dummyTok).1 ∧
     (∀ x ∈ ([("(Surah".data, (1:ℚ), 2), ("Araf".data, 2, 3), ("7:28)".data, 3, 4)] :
        List TimedToken).dropLast, ')' ∉ x.1) ∧
     ')' ∈ (([("(Surah".data, (1:ℚ), 2), ("Araf".data, 2, 3), ("7:28)".data, 3, 4)] :
        List TimedToken).getLastD dummyTok).1 ∧
     citationSearch (joinSpace (([("(Surah".data, (1:ℚ), 2), ("Araf".data, 2, 3),
        ("7:28)".data, 3, 4)] : List TimedToken).map (fun p => p.1))) = true) ∧
    expandNumericReferences
        ([("(Surah".data, (1:ℚ), 2), ("Araf".data, 2, 3), ("7:28)".data, 3, 4)] ++
          [("for".data, (4:ℚ), 5), ("details".data, 5, 6)]) =
      (joinSpace (([("(Surah".data, (1:ℚ), 2), ("Araf".data, 2, 3),
          ("7:28)".data, 3, 4)] : List TimedToken).map (fun p => p.1)),
        (([("(Surah".data, (1:ℚ), 2), ("Araf".data, 2, 3), ("7:28)".data, 3, 4)] :
          List TimedToken).headD dummyTok).2.1,
        (([("(Surah".data, (1:ℚ), 2), ("Araf".data, 2, 3), ("7:28)".data, 3, 4)] :
          List TimedToken).getLastD dummyTok).2.2) ::
        expandNumericReferences [("for".data, (4:ℚ), 5), ("details".data, 5, 6)] :=
  ⟨⟨by simp, by decide, by decide, by decide, by decide⟩,
    expand_citation_atomicity _ _ (by simp) (by decide) (by decide) (by decide) (by decide)⟩

/-- Counterexample to C4 as stated: the standalone numeral token `"99"` has
integer value 99, which is not strictly between 20 and 99, yet `expand` does
split it into a tens-token `"90"` and a ones-token `"9"`. -/
theorem expand_numeral_99_split_cex :
    natFromDigits (("99".data).takeWhile Char.isDigit) = 99 ∧
    ¬ ((20:ℕ) < 99 ∧ (99:ℕ) < 99) ∧
    (expandNumericReferences [("99".data, (0:ℚ), 1)]).map (fun p => p.1) =
      [['9', '0'], ['9']] := by
  refine ⟨by decide, by decide, ?_⟩
  decide

/-- C4 (amended): a standalone numeral token is split into a tens-token and
(when the ones digit is nonzero) a ones-token partitioned 60%/40% of the
parent interval exactly when its integer value is strictly between 20 and 100;
when the ones digit is zero no split occurs and the single output token spans
the parent's full original interval. -/
theorem expand_compound_numeral (w : List Char) (s e : ℚ)
    (hn : matchNumeric w = true) :
    expandNumericReferences [(w, s, e)] =
      if 20 < natFromDigits (w.takeWhile Char.isDigit) ∧
          natFromDigits (w.takeWhile Char.isDigit) < 100 then
        if 0 < natFromDigits (w.takeWhile Char.isDigit) % 10 then
          [([Nat.digitChar (natFromDigits (w.takeWhile Char.isDigit) / 10), '0'], s,
            s + (e - s) * (3/5)),
           ([Nat.digitChar (natFromDigits (w.takeWhile Char.isDigit) % 10)],
            s + (e - s) * (3/5), e)]
        else
          [([Nat.digitChar (natFromDigits (w.takeWhile Char.isDigit) / 10), '0'], s, e)]
      else [(w, s, e)] := by
  have hp : '(' ∉ ((w, s, e) : TimedToken).1 := matchNumeric_no_paren w hn
  rw [expandNum_cons_noparen _ _ hp, expandNum_nil, List.append_nil]
  have hv : matchVerseRef w = false := matchNumeric_not_verse w hn
  unfold expandOne
  dsimp only
  rw [if_neg (by simp [hv])]
  by_cases hrange : 20 < natFromDigits (w.takeWhile Char.isDigit) ∧
      natFromDigits (w.takeWhile Char.isDigit) < 100
  · have hlen : 1 < w.length := takeWhile_len_ge_two w hrange.1
    rw [if_pos (show (matchNumeric w && decide (1 < w.length)) = true by
      simp [hn, hlen])]
  · by_cases hlen : 1 < w.length
    · rw [if_pos (show (matchNumeric w && decide (1 < w.length)) = true by
        simp [hn, hlen])]
    · rw [if_neg (show ¬ (matchNumeric w && decide (1 < w.length)) = true by
        simp [hlen])]
      rw [if_neg hrange]

/-- Witness for the amended C4 at the token `"73"` over `[0, 1]`. -/
theorem expand_compound_numeral_witness :
    matchNumeric ("73".data) = true ∧
    expandNumericReferences [("73".data, (0:ℚ), 1)] =
      (if 20 < natFromDigits (("73".data).takeWhile Char.isDigit) ∧
          natFromDigits (("73".data).takeWhile Char.isDigit) < 100 then
        if 0 < natFromDigits (("73".data).takeWhile Char.isDigit) % 10 then
          [([Nat.digitChar (natFromDigits (("73".data).takeWhile Char.isDigit) / 10), '0'],
            (0:ℚ), 0 + ((1:ℚ) - 0) * (3/5)),
           ([Nat.digitChar (natFromDigits (("73".data).takeWhile Char.isDigit) % 10)],
            0 + ((1:ℚ) - 0) * (3/5), 1)]
        else
          [([Nat.digitChar (natFromDigits (("73".data).takeWhile Char.isDigit) / 10), '0'],
            (0:ℚ), 1)]
      else [("73".data, (0:ℚ), 1)]) :=
  ⟨by decide, expand_compound_numeral ("73".data) 0 1 (by decide)⟩

/-- C10: `expand` does not always preserve token text: the numeral token
`"99.7"` is truncated to its integer part 99, and since that value lies
strictly between 20 and 100 the token is split into `"90"` and `"9"`,
silently discarding the fractional text. -/
theorem expand_truncates_fractional_numeral (s e : ℚ) :
    expandNumericReferences [("99.7".data, s, e)] =
      [("90".data, s, s + (e - s) * (3/5)), ("9".data, s + (e - s) * (3/5), e)] := by
  have hp : '(' ∉ ("99.7".data : List Char) := by decide
  rw [expandNum_cons_noparen _ _ hp, expandNum_nil, List.append_nil]
  unfold expandOne
  dsimp only
  rw [if_neg (show ¬ matchVerseRef ("99.7".data) = true by decide)]
  rw [if_pos (show (matchNumeric ("99.7".data) &&
    decide (1 < ("99.7".data).length)) = true by decide)]
  rw [if_pos (show 20 < natFromDigits (("99.7".data).takeWhile Char.isDigit) ∧
    natFromDigits (("99.7".data).takeWhile Char.isDigit) < 100 by decide)]
  rw [if_pos (show 0 < natFromDigits (("99.7".data).takeWhile Char.isDigit) % 10
    by decide)]
  simp +decide

/-! ### Claim theorem on the corrector -/

/-- C1 (code bug): on the very misplacement scenario the corrector exists for
— original text `"The verse (Al-Araf 7:28) states clearly that"`, whose
parenthetical citation is extracted by the scan, and a timing sequence in
which the citation's tokens appear first — `correct` returns the sequence
unchanged instead of relocating the citation run: the detection test strips
the opening parenthesis from the reference fragment but not from the timing
word, and the relocation scan starts only at index 1. -/
theorem fixReferenceOrder_defect_unchanged :
    findCitations ("The verse (Al-Araf 7:28) states clearly that".data) =
      ["(Al-Araf 7:28)".data] ∧
    fixReferenceOrder ("The verse (Al-Araf 7:28) states clearly that".data)
        [("(Al-Araf".data, (0:ℚ), 1), ("7:28)".data, 1, 2), ("The".data, 2, 3),
         ("verse".data, 3, 4), ("states".data, 4, 5), ("clearly".data, 5, 6),
         ("that".data, 6, 7)] =
      [("(Al-Araf".data, (0:ℚ), 1), ("7:28)".data, 1, 2), ("The".data, 2, 3),
       ("verse".data, 3, 4), ("states".data, 4, 5), ("clearly".data, 5, 6),
       ("that".data, 6, 7)] :=
  ⟨rfl, rfl⟩
